import Mathlib

/-
Shallow embedding of the spike-analysis utilities in `src/utils.py`
(select_spikes_around_stimuli, select_brain_area, clip_spikes,
spikes_to_neo, find_synchronous_spikes).

Modelling conventions:
* A pandas DataFrame of spikes becomes a `List Event`, one `Event` per row,
  in row order.  A stimulus table becomes the `List ℚ` of its `start_time`
  column (the only column the code reads).
* float64 timestamps are modelled as `ℚ`; the code's comparisons and its
  exact floating-point equality tests become the corresponding exact
  operations on `ℚ`.
* `numpy.concatenate` raises `ValueError` on an empty list of arrays; this
  is modelled by `np_concatenate` returning `Option`, with `none` for the
  raised error.
* pandas `Series.min()` on an empty column returns `NaN`, and every
  comparison `x <= NaN` is false; `clip_spikes` models this with an
  explicit empty-minimum branch that retains no row.
* Python's `str.upper()` on the ASCII category codes used as brain-area
  labels is per-character uppercasing, modelled by `strUpper`.
* A `neo.core.SpikeTrain` keeps the spike times exactly as it was given
  them (its constructor only range-checks against t_start/t_stop, which
  always succeeds here since they are global min-1 / max+1); it is
  modelled by `SpikeTrainE` carrying the unmodified times list.
-/

deriving instance DecidableEq for Except

namespace SpikeAnalysis

/-- One row of a spikes DataFrame: columns `spike_time`, `unit_id`,
`brain_area`. -/
structure Event where
  spike_time : ℚ
  unit_id : ℕ
  brain_area : String
deriving DecidableEq

/-- Scan for `pdUnique`: emit each value not yet seen, in order. -/
def pdUniqueAux {α : Type} [DecidableEq α] (seen : List α) : List α → List α
  | [] => []
  | a :: l =>
    if a ∈ seen then pdUniqueAux seen l else a :: pdUniqueAux (a :: seen) l

/-- pandas `.unique()`: the distinct values of a column, in order of first
appearance. -/
def pdUnique {α : Type} [DecidableEq α] (l : List α) : List α :=
  pdUniqueAux [] l

/-- pandas `Series.min()`: `none` on an empty column (pandas actually
returns `NaN` there; no value is produced that any row can compare `<=`
against). -/
def listMin (l : List ℚ) : Option ℚ :=
  match l with
  | [] => none
  | a :: t => some (t.foldl min a)

/-- pandas `Series.max()`, analogously. -/
def listMax (l : List ℚ) : Option ℚ :=
  match l with
  | [] => none
  | a :: t => some (t.foldl max a)

/-- Python `str.upper()` restricted to the ASCII category codes appearing
as brain-area labels: per-character uppercasing. -/
def strUpper (s : String) : String :=
  ⟨s.data.map Char.toUpper⟩

/-- The window test of `select_spikes_around_stimuli` for one spike:
there is a stimulus onset `o` with `o + tmin <= t` and `t < o + tmax`
(numpy broadcast condition matrix followed by `.any(axis=1)`). -/
def window_hit (stim_times : List ℚ) (tmin tmax : ℚ) (t : ℚ) : Bool :=
  stim_times.any (fun o => decide (o + tmin ≤ t) && decide (t < o + tmax))

/-- `select_spikes_around_stimuli` (src/utils.py, lines 45-63): keep the
rows of `spikes` whose `spike_time` falls in the half-open window
`[o + tmin, o + tmax)` of at least one stimulus onset `o`. -/
def select_spikes_around_stimuli (spikes : List Event) (stimuli : List ℚ)
    (tmin tmax : ℚ) : List Event :=
  spikes.filter (fun e => window_hit stimuli tmin tmax e.spike_time)

/-- `select_brain_area` (src/utils.py, lines 66-76): uppercase the request,
check it against the distinct `brain_area` values, raise `ValueError`
listing the possible values if absent (modelled by `Except.error` carrying
that list), otherwise keep the rows with that `brain_area`. -/
def select_brain_area (spikes : List Event) (brain_area : String) :
    Except (List String) (List Event) :=
  let all_brain_areas := pdUnique (spikes.map Event.brain_area)
  let ba := strUpper brain_area
  if ba ∈ all_brain_areas then
    Except.ok (spikes.filter (fun e => e.brain_area == ba))
  else
    Except.error all_brain_areas

/-- `clip_spikes` (src/utils.py, lines 79-84): `t_stop = min(spike_time) +
max_dur`, keep rows with `spike_time <= t_stop`.  On an empty table the
min is `NaN` and no row satisfies the comparison (there are no rows), so
the result is empty — no exception is raised. -/
def clip_spikes (spikes : List Event) (max_dur : ℚ) : List Event :=
  match listMin (spikes.map Event.spike_time) with
  | none => []
  | some m => spikes.filter (fun e => decide (e.spike_time ≤ m + max_dur))

/-- Embedding of a `neo.core.SpikeTrain`: the times exactly as passed to
the constructor (neo does not sort them), the global bounds, and
`name` set to the unit's brain area. -/
structure SpikeTrainE where
  times : List ℚ
  t_start : ℚ
  t_stop : ℚ
  name : String
deriving DecidableEq

/-- `spikes_to_neo` (src/utils.py, lines 87-102): for each distinct
`unit_id` (first-appearance order), build a SpikeTrain from that unit's
rows in table row order, and keep it iff its spike count strictly exceeds
`min_spikes`.  `t_start`/`t_stop` are global `min - 1` / `max + 1`
(irrelevant defaults on an empty table, whose loop body never runs). -/
def spikes_to_neo (spikes : List Event) (min_spikes : ℕ) : List SpikeTrainE :=
  let t_start := (listMin (spikes.map Event.spike_time)).getD 0 - 1
  let t_stop := (listMax (spikes.map Event.spike_time)).getD 0 + 1
  (pdUnique (spikes.map Event.unit_id)).filterMap (fun u =>
    let unit_rows := spikes.filter (fun e => e.unit_id == u)
    let area := ((unit_rows.map Event.brain_area).head?).getD ""
    let spike_times := unit_rows.map Event.spike_time
    if min_spikes < spike_times.length then
      some ⟨spike_times, t_start, t_stop, area⟩
    else none)

/-- `numpy.concatenate`: raises `ValueError` ("need at least one array to
concatenate") on an empty list of arrays, otherwise concatenates. -/
def np_concatenate {α : Type} : List (List α) → Option (List α)
  | [] => none
  | a :: t => some ((a :: t).flatten)

/-- The group taken for one distinct timestamp value `s`:
`idx = np.where(all_spikes == s)`, kept iff `len(idx) > 1`, yielding the
pairs `(all_spikes[idx], all_trains[idx])` in index order. -/
def dup_group (pairs : List (ℚ × ℕ)) (s : ℚ) : Option (List (ℚ × ℕ)) :=
  let idx := pairs.filter (fun p => p.1 == s)
  if 1 < idx.length then some idx else none

/-- `find_synchronous_spikes` (src/utils.py, lines 125-154): concatenate
all spike times and, in parallel, the owning train indices; for each
distinct timestamp (in ascending order, as `np.unique` returns them)
whose occurrence count exceeds one, emit its occurrences (times and owner
indices) in flattening order; return the flattened times and owners.
`np.unique`'s sorted-distinct output is modelled by an insertion sort of
the first-appearance distinct values. -/
def find_synchronous_spikes (trains : List (List ℚ)) :
    Option (List ℚ × List ℕ) :=
  match np_concatenate trains,
      np_concatenate (trains.enum.map (fun p => p.2.map (fun _ => p.1))) with
  | some all_spikes, some all_trains =>
    let pairs := all_spikes.zip all_trains
    let uniq := List.insertionSort (fun a b => a ≤ b) (pdUnique all_spikes)
    let flat := (uniq.filterMap (dup_group pairs)).flatten
    some (flat.map Prod.fst, flat.map Prod.snd)
  | _, _ => none

/-- The flattened (timestamp, owner index) pairs of a list of trains,
starting the owner numbering at `n`: the zip of the two concatenations in
`find_synchronous_spikes`, in closed recursive form. -/
def pairsFrom (n : ℕ) : List (List ℚ) → List (ℚ × ℕ)
  | [] => []
  | t :: ts => t.map (fun x => (x, n)) ++ pairsFrom (n + 1) ts

/-- The synchronous (time, owner) pairs computed inside
`find_synchronous_spikes` when the input list is non-empty. -/
def sync_flat (ts : List (List ℚ)) : List (ℚ × ℕ) :=
  ((List.insertionSort (fun a b => a ≤ b) (pdUnique ts.flatten)).filterMap
    (dup_group (pairsFrom 0 ts))).flatten

/-! ### Helper lemmas -/

theorem mem_pdUniqueAux {α : Type} [DecidableEq α] {l seen : List α} {a : α} :
    a ∈ pdUniqueAux seen l ↔ a ∈ l ∧ a ∉ seen := by
  induction l generalizing seen with
  | nil => simp [pdUniqueAux]
  | cons x t ih =>
    rw [pdUniqueAux]
    by_cases hx : x ∈ seen
    · rw [if_pos hx, ih, List.mem_cons]
      constructor
      · exact fun ⟨h1, h2⟩ => ⟨Or.inr h1, h2⟩
      · rintro ⟨h1 | h1, h2⟩
        · exact absurd (h1 ▸ hx) h2
        · exact ⟨h1, h2⟩
    · rw [if_neg hx, List.mem_cons, ih, List.mem_cons]
      by_cases hax : a = x
      · subst hax; simp [hx]
      · simp [hax]

theorem mem_pdUnique {α : Type} [DecidableEq α] {l : List α} {a : α} :
    a ∈ pdUnique l ↔ a ∈ l := by
  rw [pdUnique, mem_pdUniqueAux]
  simp

theorem nodup_pdUniqueAux {α : Type} [DecidableEq α] (l seen : List α) :
    (pdUniqueAux seen l).Nodup := by
  induction l generalizing seen with
  | nil => exact List.nodup_nil
  | cons x t ih =>
    rw [pdUniqueAux]
    by_cases hx : x ∈ seen
    · rw [if_pos hx]; exact ih seen
    · rw [if_neg hx, List.nodup_cons]
      refine ⟨fun hc => ?_, ih (x :: seen)⟩
      exact (mem_pdUniqueAux.mp hc).2 (List.mem_cons_self x seen)

theorem nodup_pdUnique {α : Type} [DecidableEq α] (l : List α) :
    (pdUnique l).Nodup :=
  nodup_pdUniqueAux l []

theorem foldlMin_le (t : List ℚ) (a : ℚ) :
    t.foldl min a ≤ a ∧ ∀ x ∈ t, t.foldl min a ≤ x := by
  induction t generalizing a with
  | nil => simp
  | cons b t ih =>
    have h := ih (min a b)
    refine ⟨le_trans h.1 (min_le_left a b), fun x hx => ?_⟩
    rcases List.mem_cons.mp hx with rfl | hx
    · exact le_trans h.1 (min_le_right a x)
    · exact h.2 x hx

theorem foldlMin_mem (t : List ℚ) (a : ℚ) : t.foldl min a ∈ a :: t := by
  induction t generalizing a with
  | nil => simp
  | cons b t ih =>
    have h := ih (min a b)
    simp only [List.foldl_cons, List.mem_cons] at h ⊢
    rcases h with hm | hm
    · rcases min_choice a b with hc | hc
      · exact Or.inl (hm.trans hc)
      · exact Or.inr (Or.inl (hm.trans hc))
    · exact Or.inr (Or.inr hm)

theorem listMin_spec {l : List ℚ} {m : ℚ} (h : listMin l = some m) :
    m ∈ l ∧ ∀ x ∈ l, m ≤ x := by
  cases l with
  | nil => simp [listMin] at h
  | cons a t =>
    simp only [listMin, Option.some.injEq] at h
    subst h
    exact ⟨foldlMin_mem t a, fun x hx =>
      (List.mem_cons.mp hx).elim (fun hx => hx ▸ (foldlMin_le t a).1)
        (fun hx => (foldlMin_le t a).2 x hx)⟩

theorem listMin_eq_some {l : List ℚ} {m : ℚ} (hm : m ∈ l)
    (hle : ∀ x ∈ l, m ≤ x) : listMin l = some m := by
  cases l with
  | nil => simp at hm
  | cons a t =>
    obtain ⟨h1, h2⟩ := listMin_spec (l := a :: t) (m := t.foldl min a) rfl
    simp only [listMin, Option.some.injEq]
    exact le_antisymm (h2 m hm) (hle _ h1)

theorem window_hit_iff (stim_times : List ℚ) (tmin tmax t : ℚ) :
    window_hit stim_times tmin tmax t = true ↔
      ∃ o ∈ stim_times, o + tmin ≤ t ∧ t < o + tmax := by
  simp [window_hit, List.any_eq_true]

theorem count_filter_eq (p : α → Bool) [DecidableEq α] (l : List α) (a : α) :
    (l.filter p).count a = if p a = true then l.count a else 0 := by
  by_cases h : p a = true
  · rw [if_pos h, List.count_filter h]
  · rw [if_neg h, List.count_eq_zero]
    intro hmem
    exact h (List.mem_filter.mp hmem).2

theorem zip_map_const (t : List ℚ) (n : ℕ) :
    t.zip (t.map (fun _ => n)) = t.map (fun x => (x, n)) := by
  induction t with
  | nil => rfl
  | cons a t ih => simp only [List.map_cons, List.zip_cons_cons, ih]

theorem zip_concat_eq_pairsFrom (n : ℕ) (ts : List (List ℚ)) :
    ts.flatten.zip ((List.enumFrom n ts).map
      (fun p => p.2.map (fun _ => p.1))).flatten = pairsFrom n ts := by
  induction ts generalizing n with
  | nil => rfl
  | cons t rest ih =>
    show (t ++ rest.flatten).zip
        (t.map (fun _ => n) ++ ((List.enumFrom (n + 1) rest).map
          (fun p => p.2.map (fun _ => p.1))).flatten) = _
    rw [List.zip_append (by simp), zip_map_const, ih, pairsFrom]

theorem pairsFrom_map_fst (n : ℕ) (ts : List (List ℚ)) :
    (pairsFrom n ts).map Prod.fst = ts.flatten := by
  induction ts generalizing n with
  | nil => rfl
  | cons t rest ih =>
    simp only [pairsFrom, List.map_append, List.map_map, ih, List.flatten_cons]
    congr 1
    exact List.map_id t

theorem pairsFrom_append_empty (n : ℕ) (ts : List (List ℚ)) :
    pairsFrom n (ts ++ [[]]) = pairsFrom n ts := by
  induction ts generalizing n with
  | nil => rfl
  | cons t rest ih =>
    rw [List.cons_append]
    show t.map (fun x => (x, n)) ++ pairsFrom (n + 1) (rest ++ [[]]) = _
    rw [ih, pairsFrom]

theorem find_synchronous_eq (ts : List (List ℚ)) (h : ts ≠ []) :
    find_synchronous_spikes ts =
      some ((sync_flat ts).map Prod.fst, (sync_flat ts).map Prod.snd) := by
  cases ts with
  | nil => exact absurd rfl h
  | cons t rest =>
    simp only [sync_flat]
    rw [← zip_concat_eq_pairsFrom 0 (t :: rest)]
    rfl

theorem dup_group_eq_some {pairs : List (ℚ × ℕ)} {s : ℚ}
    {g : List (ℚ × ℕ)} (h : dup_group pairs s = some g) :
    g = pairs.filter (fun p => p.1 == s) ∧ 1 < g.length := by
  simp only [dup_group] at h
  split at h
  · cases h; exact ⟨rfl, by assumption⟩
  · exact absurd h (by simp)

theorem dup_group_eq_none {pairs : List (ℚ × ℕ)} {s : ℚ}
    (h : dup_group pairs s = none) :
    ¬ 1 < (pairs.filter (fun p => p.1 == s)).length := by
  simp only [dup_group] at h
  split at h
  · exact absurd h (by simp)
  · assumption

theorem flat_filter_group (uniq : List ℚ) (pairs : List (ℚ × ℕ)) (s : ℚ)
    (hnd : uniq.Nodup) :
    ((uniq.filterMap (dup_group pairs)).flatten).filter (fun p => p.1 == s) =
      if s ∈ uniq ∧ 1 < (pairs.filter (fun p => p.1 == s)).length
      then pairs.filter (fun p => p.1 == s) else [] := by
  induction uniq with
  | nil => simp
  | cons a u ih =>
    obtain ⟨ha_notin, hu_nd⟩ := List.nodup_cons.mp hnd
    rw [List.filterMap_cons]
    by_cases hsa : s = a
    · subst hsa
      have hs_not_u : ¬ (s ∈ u ∧ 1 < (pairs.filter (fun p => p.1 == s)).length) :=
        fun hc => ha_notin hc.1
      cases hg : dup_group pairs s with
      | none =>
        rw [ih hu_nd, if_neg hs_not_u, if_neg]
        rintro ⟨-, hlen⟩
        exact dup_group_eq_none hg hlen
      | some g =>
        obtain ⟨hg_eq, hg_len⟩ := dup_group_eq_some hg
        rw [List.flatten_cons, List.filter_append, ih hu_nd, if_neg hs_not_u,
          List.append_nil, if_pos ⟨List.mem_cons_self s u, hg_eq ▸ hg_len⟩,
          hg_eq, List.filter_filter]
        apply List.filter_congr
        intro p hp
        simp
    · have hmem : (s ∈ a :: u ∧ 1 < (pairs.filter (fun p => p.1 == s)).length)
          ↔ (s ∈ u ∧ 1 < (pairs.filter (fun p => p.1 == s)).length) := by
        rw [List.mem_cons]
        constructor
        · rintro ⟨hs | hs, hl⟩
          · exact absurd hs hsa
          · exact ⟨hs, hl⟩
        · exact fun ⟨hs, hl⟩ => ⟨Or.inr hs, hl⟩
      cases hg : dup_group pairs a with
      | none =>
        rw [ih hu_nd]
        exact (if_congr hmem rfl rfl).symm
      | some g =>
        obtain ⟨hg_eq, -⟩ := dup_group_eq_some hg
        have hgf : g.filter (fun p => p.1 == s) = [] := by
          rw [List.filter_eq_nil_iff]
          intro p hp
          have hp' : p ∈ pairs.filter (fun q => q.1 == a) := by
            rw [← hg_eq]; exact hp
          have hpa : p.1 = a := eq_of_beq (List.mem_filter.mp hp').2
          simp only [hpa, beq_iff_eq]
          exact fun hc => hsa hc.symm
        rw [List.flatten_cons, List.filter_append, hgf, List.nil_append,
          ih hu_nd]
        exact (if_congr hmem rfl rfl).symm

theorem flat_fst_mem (uniq : List ℚ) (pairs : List (ℚ × ℕ)) (x : ℚ)
    (hx : x ∈ ((uniq.filterMap (dup_group pairs)).flatten).map Prod.fst) :
    x ∈ uniq := by
  induction uniq with
  | nil => simp at hx
  | cons a u ih =>
    rw [List.filterMap_cons] at hx
    cases hg : dup_group pairs a with
    | none => rw [hg] at hx; exact List.mem_cons_of_mem a (ih hx)
    | some g =>
      rw [hg, List.flatten_cons, List.map_append, List.mem_append] at hx
      rcases hx with hx | hx
      · obtain ⟨p, hp, hpx⟩ := List.mem_map.mp hx
        obtain ⟨hg_eq, -⟩ := dup_group_eq_some hg
        have hp' : p ∈ pairs.filter (fun q => q.1 == a) := by
          rw [← hg_eq]; exact hp
        have hpa : p.1 = a := eq_of_beq (List.mem_filter.mp hp').2
        exact List.mem_cons.mpr (Or.inl (hpx ▸ hpa))
      · exact List.mem_cons_of_mem a (ih hx)

theorem pairwise_le_of_const {l : List ℚ} {a : ℚ} (h : ∀ x ∈ l, x = a) :
    l.Pairwise (fun x y => x ≤ y) := by
  induction l with
  | nil => exact List.Pairwise.nil
  | cons b t ih =>
    refine List.Pairwise.cons (fun y hy => ?_) (ih fun x hx => h x (List.mem_cons_of_mem b hx))
    rw [h b (List.mem_cons_self b t), h y (List.mem_cons_of_mem b hy)]

theorem flat_fst_sorted (uniq : List ℚ) (pairs : List (ℚ × ℕ))
    (hs : uniq.Sorted (fun a b => a ≤ b)) :
    (((uniq.filterMap (dup_group pairs)).flatten).map Prod.fst).Sorted
      (fun a b => a ≤ b) := by
  induction uniq with
  | nil => simp [List.Sorted]
  | cons a u ih =>
    obtain ⟨hall, hu⟩ := List.sorted_cons.mp hs
    rw [List.filterMap_cons]
    cases hg : dup_group pairs a with
    | none => exact ih hu
    | some g =>
      obtain ⟨hg_eq, -⟩ := dup_group_eq_some hg
      rw [List.flatten_cons, List.map_append]
      rw [List.Sorted] at ih ⊢
      rw [List.pairwise_append]
      have hconst : ∀ x ∈ g.map Prod.fst, x = a := by
        intro x hx
        obtain ⟨p, hp, hpx⟩ := List.mem_map.mp hx
        have hp' : p ∈ pairs.filter (fun q => q.1 == a) := by
          rw [← hg_eq]; exact hp
        exact hpx ▸ eq_of_beq (List.mem_filter.mp hp').2
      refine ⟨pairwise_le_of_const hconst, ih hu, fun x hx y hy => ?_⟩
      rw [hconst x hx]
      exact hall y (flat_fst_mem u pairs y hy)

theorem sync_uniq_nodup (ts : List (List ℚ)) :
    (List.insertionSort (fun a b => a ≤ b) (pdUnique ts.flatten)).Nodup :=
  ((List.perm_insertionSort _ _).nodup_iff).mpr (nodup_pdUnique _)

theorem sync_uniq_mem (ts : List (List ℚ)) (s : ℚ) :
    s ∈ List.insertionSort (fun a b => a ≤ b) (pdUnique ts.flatten)
      ↔ s ∈ ts.flatten := by
  rw [(List.perm_insertionSort _ _).mem_iff, mem_pdUnique]

theorem pairs_filter_length (ts : List (List ℚ)) (s : ℚ) :
    ((pairsFrom 0 ts).filter (fun p => p.1 == s)).length =
      ts.flatten.count s := by
  rw [← List.countP_eq_length_filter, List.count_eq_countP,
    ← pairsFrom_map_fst 0 ts, List.countP_map]
  rfl

theorem sync_flat_filter (ts : List (List ℚ)) (s : ℚ) :
    (sync_flat ts).filter (fun p => p.1 == s) =
      if 1 < ts.flatten.count s
      then (pairsFrom 0 ts).filter (fun p => p.1 == s) else [] := by
  rw [sync_flat, flat_filter_group _ _ s (sync_uniq_nodup ts)]
  by_cases hc : 1 < ts.flatten.count s
  · rw [if_pos hc, if_pos]
    refine ⟨(sync_uniq_mem ts s).mpr ?_, ?_⟩
    · exact List.count_pos_iff.mp (Nat.lt_of_lt_of_le Nat.zero_lt_one hc.le)
    · rw [pairs_filter_length]; exact hc
  · rw [if_neg hc, if_neg]
    rintro ⟨-, hlen⟩
    rw [pairs_filter_length] at hlen
    exact hc hlen

theorem sync_flat_fst_sorted (ts : List (List ℚ)) :
    ((sync_flat ts).map Prod.fst).Sorted (fun a b => a ≤ b) :=
  flat_fst_sorted _ _ (List.sorted_insertionSort _ _)

theorem sync_flat_fst_count (ts : List (List ℚ)) (s : ℚ) :
    ((sync_flat ts).map Prod.fst).count s =
      if 1 < ts.flatten.count s then ts.flatten.count s else 0 := by
  rw [List.count_eq_countP, List.countP_map,
    show ((fun x => x == s) ∘ Prod.fst) = (fun p : ℚ × ℕ => p.1 == s) from rfl,
    List.countP_eq_length_filter, sync_flat_filter]
  by_cases hc : 1 < ts.flatten.count s
  · rw [if_pos hc, if_pos hc, pairs_filter_length]
  · rw [if_neg hc, if_neg hc, List.length_nil]

theorem sync_zip_fst_snd (ts : List (List ℚ)) :
    ((sync_flat ts).map Prod.fst).zip ((sync_flat ts).map Prod.snd) =
      sync_flat ts := by
  rw [List.zip_map']
  simp

theorem filterMap_if {α β : Type} (l : List α) (c : α → Prop)
    [DecidablePred c] (f : α → β) :
    l.filterMap (fun a => if c a then some (f a) else none) =
      (l.filter (fun a => decide (c a))).map f := by
  induction l with
  | nil => rfl
  | cons a t ih =>
    rw [List.filterMap_cons, List.filter_cons]
    by_cases h : c a
    · simp only [if_pos h, decide_eq_true h, if_pos, List.map_cons, ih]
    · simp only [if_neg h, decide_eq_false h, ih]
      rfl

/-! ### Claim theorems -/

/-- C1: for every spike table, stimulus table and bounds `tmin < tmax`,
`select_spikes_around_stimuli` returns exactly those spikes whose
timestamp `t` satisfies `o + tmin <= t < o + tmax` for at least one
stimulus onset `o` (a sublist of the input, with multiplicities
preserved for retained rows), and the result is empty — without error —
when there are no stimuli or no spikes. -/
theorem select_window_spec (spikes : List Event) (stimuli : List ℚ)
    (tmin tmax : ℚ) (_h : tmin < tmax) :
    List.Sublist (select_spikes_around_stimuli spikes stimuli tmin tmax) spikes
    ∧ (∀ e, e ∈ select_spikes_around_stimuli spikes stimuli tmin tmax ↔
        e ∈ spikes ∧ ∃ o ∈ stimuli,
          o + tmin ≤ e.spike_time ∧ e.spike_time < o + tmax)
    ∧ (∀ e : Event,
        (select_spikes_around_stimuli spikes stimuli tmin tmax).count e =
          if ∃ o ∈ stimuli, o + tmin ≤ e.spike_time ∧ e.spike_time < o + tmax
          then spikes.count e else 0)
    ∧ (stimuli = [] → select_spikes_around_stimuli spikes stimuli tmin tmax = [])
    ∧ (spikes = [] → select_spikes_around_stimuli spikes stimuli tmin tmax = []) := by
  refine ⟨List.filter_sublist spikes, fun e => ?_, fun e => ?_, fun hs => ?_, fun hs => ?_⟩
  · simp [select_spikes_around_stimuli, List.mem_filter, window_hit_iff]
  · rw [select_spikes_around_stimuli, count_filter_eq]
    by_cases hex : ∃ o ∈ stimuli, o + tmin ≤ e.spike_time ∧ e.spike_time < o + tmax
    · rw [if_pos ((window_hit_iff _ _ _ _).mpr hex), if_pos hex]
    · rw [if_neg (fun hw => hex ((window_hit_iff _ _ _ _).mp hw)), if_neg hex]
  · subst hs; simp [select_spikes_around_stimuli, window_hit]
  · subst hs; rfl

theorem select_window_spec_witness :
    ((-1 : ℚ) < 1) ∧
    (List.Sublist
        (select_spikes_around_stimuli [⟨0, 0, "A"⟩] [0] (-1) 1) [⟨0, 0, "A"⟩]
    ∧ (∀ e, e ∈ select_spikes_around_stimuli [⟨0, 0, "A"⟩] [0] (-1) 1 ↔
        e ∈ [(⟨0, 0, "A"⟩ : Event)] ∧ ∃ o ∈ ([0] : List ℚ),
          o + (-1) ≤ e.spike_time ∧ e.spike_time < o + 1)
    ∧ (∀ e : Event,
        (select_spikes_around_stimuli [⟨0, 0, "A"⟩] [0] (-1) 1).count e =
          if ∃ o ∈ ([0] : List ℚ),
              o + (-1) ≤ e.spike_time ∧ e.spike_time < o + 1
          then [(⟨0, 0, "A"⟩ : Event)].count e else 0)
    ∧ (([0] : List ℚ) = [] →
        select_spikes_around_stimuli [⟨0, 0, "A"⟩] [0] (-1) 1 = [])
    ∧ (([(⟨0, 0, "A"⟩ : Event)]) = [] →
        select_spikes_around_stimuli [⟨0, 0, "A"⟩] [0] (-1) 1 = [])) :=
  ⟨by norm_num, select_window_spec [⟨0, 0, "A"⟩] [0] (-1) 1 (by norm_num)⟩

/-- C4, counterexample: `clip_spikes` applied to an empty spike table does
NOT fail with a typed `EmptyInput` error — pandas returns `NaN` for the
min of an empty column, the comparison retains no row, and an empty table
is returned silently, contradicting the claim. -/
theorem clip_empty_counterexample : clip_spikes [] 1 = [] := rfl

/-- C4, amended: `clip_spikes` applied to an empty spike table silently
returns an empty table for every `max_dur`; no error is raised. -/
theorem clip_empty_amended : ∀ max_dur : ℚ, clip_spikes [] max_dur = [] :=
  fun _ => rfl

/-- C5, counterexample: calling `select_spikes_around_stimuli` with
`tmin >= tmax` (here `tmin = 1`, `tmax = 0`) does NOT fail with a typed
`InvalidWindow` error — the code performs no window validation and
returns a normal (empty) selection. -/
theorem select_invalid_window_counterexample :
    select_spikes_around_stimuli [⟨0, 0, "A"⟩] [0] 1 0 = [] := by
  norm_num [select_spikes_around_stimuli, window_hit]

/-- C5, amended: calling `select_spikes_around_stimuli` with
`tmin >= tmax` raises no error; it returns an empty selection, because no
timestamp can lie in the then-empty window `[o + tmin, o + tmax)`. -/
theorem select_invalid_window_amended (spikes : List Event)
    (stimuli : List ℚ) (tmin tmax : ℚ) (h : tmax ≤ tmin) :
    select_spikes_around_stimuli spikes stimuli tmin tmax = [] := by
  rw [select_spikes_around_stimuli, List.filter_eq_nil_iff]
  intro e _ hw
  obtain ⟨o, _, h1, h2⟩ := (window_hit_iff _ _ _ _).mp hw
  exact absurd (h2.trans_le (by linarith)) (lt_irrefl _)

theorem select_invalid_window_amended_witness :
    ((0 : ℚ) ≤ 2) ∧
      select_spikes_around_stimuli [⟨1, 0, "B"⟩] [0, 3] 2 0 = [] :=
  ⟨by norm_num, select_invalid_window_amended [⟨1, 0, "B"⟩] [0, 3] 2 0 (by norm_num)⟩

/-- C8: clipping a second time with the same or larger duration leaves the
result of `clip_spikes` unchanged (idempotence under re-clipping). -/
theorem clip_idempotent (spikes : List Event) (d d' : ℚ)
    (hne : spikes ≠ []) (hd : 0 < d) (hdd : d ≤ d') :
    clip_spikes (clip_spikes spikes d) d' = clip_spikes spikes d := by
  obtain ⟨e0, he0⟩ := List.exists_mem_of_ne_nil spikes hne
  have hmapne : spikes.map Event.spike_time ≠ [] := by
    simp [List.map_eq_nil_iff]
    exact fun hc => hne hc
  obtain ⟨m, hm⟩ : ∃ m, listMin (spikes.map Event.spike_time) = some m := by
    cases hmin : listMin (spikes.map Event.spike_time) with
    | none =>
      cases hl : spikes.map Event.spike_time with
      | nil => exact absurd hl hmapne
      | cons a t => rw [hl] at hmin; simp [listMin] at hmin
    | some m => exact ⟨m, rfl⟩
  obtain ⟨hm_mem, hm_le⟩ := listMin_spec hm
  obtain ⟨em, hem_mem, hem_time⟩ := List.mem_map.mp hm_mem
  have hclip : clip_spikes spikes d =
      spikes.filter (fun e => decide (e.spike_time ≤ m + d)) := by
    rw [clip_spikes, hm]
  have hem_in : em ∈ clip_spikes spikes d := by
    rw [hclip, List.mem_filter]
    exact ⟨hem_mem, by rw [hem_time]; simp; linarith⟩
  have hmin2 : listMin ((clip_spikes spikes d).map Event.spike_time) = some m := by
    apply listMin_eq_some
    · exact List.mem_map.mpr ⟨em, hem_in, hem_time⟩
    · intro x hx
      obtain ⟨ex, hex_in, hex_time⟩ := List.mem_map.mp hx
      rw [hclip] at hex_in
      exact hex_time ▸ hm_le _ (List.mem_map.mpr
        ⟨ex, (List.mem_filter.mp hex_in).1, rfl⟩)
  rw [clip_spikes, hmin2, List.filter_eq_self]
  intro e he
  rw [hclip, List.mem_filter] at he
  have := of_decide_eq_true he.2
  simp only [decide_eq_true_eq]
  linarith

theorem clip_idempotent_witness :
    (([⟨0, 0, "A"⟩] : List Event) ≠ [] ∧ (0 : ℚ) < 1 ∧ (1 : ℚ) ≤ 2) ∧
      clip_spikes (clip_spikes [⟨0, 0, "A"⟩] 1) 2 = clip_spikes [⟨0, 0, "A"⟩] 1 :=
  ⟨⟨by decide, by norm_num, by norm_num⟩,
    clip_idempotent [⟨0, 0, "A"⟩] 1 2 (by decide) (by norm_num) (by norm_num)⟩

/-- C10: each filtering operation — window selection, attribute filtering
(in its successful case) and duration clipping — returns a sublist of the
input table: every output row is an input row, no row is duplicated, and
the retained rows keep the input's relative order. -/
theorem filters_return_sublists (spikes : List Event) (stimuli : List ℚ)
    (tmin tmax max_dur : ℚ) (brain_area : String) :
    List.Sublist (select_spikes_around_stimuli spikes stimuli tmin tmax) spikes
    ∧ List.Sublist (clip_spikes spikes max_dur) spikes
    ∧ ∀ l, select_brain_area spikes brain_area = Except.ok l →
        List.Sublist l spikes := by
  refine ⟨List.filter_sublist spikes, ?_, fun l hl => ?_⟩
  · rw [clip_spikes]
    cases listMin (spikes.map Event.spike_time) with
    | none => exact List.nil_sublist spikes
    | some m => exact List.filter_sublist spikes
  · rw [select_brain_area] at hl
    split at hl
    · rw [Except.ok.injEq] at hl
      exact hl ▸ List.filter_sublist spikes
    · exact absurd hl (by simp)

theorem filters_return_sublists_witness :
    select_brain_area [⟨1, 0, "LM"⟩] "lm" = Except.ok [⟨1, 0, "LM"⟩] ∧
      List.Sublist [(⟨1, 0, "LM"⟩ : Event)] [⟨1, 0, "LM"⟩] :=
  ⟨by decide, (filters_return_sublists [⟨1, 0, "LM"⟩] [] 0 0 0 "lm").2.2
    [⟨1, 0, "LM"⟩] (by decide)⟩

/-- C2, counterexample: the claim quantifies over every list of event
sequences, but at the empty list `find_synchronous_spikes` does not emit
an empty pairing — `numpy.concatenate` of zero arrays raises `ValueError`,
so no `(times, owners)` result is produced at all. -/
theorem findSynchrony_empty_list_counterexample :
    find_synchronous_spikes ([] : List (List ℚ)) ≠ some ([], []) := by decide

/-- C2, amended: for every NON-EMPTY list of event sequences,
`find_synchronous_spikes` emits, for each distinct timestamp occurring
two or more times across the concatenation of all sequences (exact value
equality), one (timestamp, owner-index) pair per occurrence; pairs are
ordered by ascending timestamp and, within one timestamp, by flattening
order (`pairsFrom 0` lists the occurrences in sequence order); in
particular seq0=[1,2,3], seq1=[2,4] yields times=[2,2], owners=[0,1]. -/
theorem findSynchrony_spec :
    (∀ ts : List (List ℚ), ts ≠ [] →
      ∃ times owners,
        find_synchronous_spikes ts = some (times, owners) ∧
        times.Sorted (fun a b => a ≤ b) ∧
        ∀ s : ℚ, (times.zip owners).filter (fun p => p.1 == s) =
          (if 1 < ts.flatten.count s
           then (pairsFrom 0 ts).filter (fun p => p.1 == s) else []))
    ∧ find_synchronous_spikes [[1, 2, 3], [2, 4]] = some ([2, 2], [0, 1]) := by
  refine ⟨fun ts h => ⟨(sync_flat ts).map Prod.fst, (sync_flat ts).map Prod.snd,
    find_synchronous_eq ts h, sync_flat_fst_sorted ts, fun s => ?_⟩, by decide⟩
  rw [sync_zip_fst_snd, sync_flat_filter]

theorem findSynchrony_spec_witness :
    (([[1, 2, 3], [2, 4]] : List (List ℚ)) ≠ []) ∧
      (∃ times owners,
        find_synchronous_spikes [[1, 2, 3], [2, 4]] = some (times, owners) ∧
        times.Sorted (fun a b => a ≤ b) ∧
        ∀ s : ℚ, (times.zip owners).filter (fun p => p.1 == s) =
          (if 1 < ([[1, 2, 3], [2, 4]] : List (List ℚ)).flatten.count s
           then (pairsFrom 0 [[1, 2, 3], [2, 4]]).filter (fun p => p.1 == s)
           else [])) :=
  ⟨by decide, findSynchrony_spec.1 [[1, 2, 3], [2, 4]] (by decide)⟩

/-- C3, counterexample: `find_synchronous_spikes` applied to an empty list
of sequences does NOT return an empty result — the very first
`numpy.concatenate` call receives zero arrays and raises `ValueError`
("need at least one array to concatenate"), modelled as `none`. -/
theorem findSynchrony_empty_error_counterexample :
    find_synchronous_spikes ([] : List (List ℚ)) = none := rfl

/-- C3, amended: `find_synchronous_spikes` applied to an empty list of
sequences raises an error (concatenating zero arrays fails); for a
non-empty input list, sequences containing zero events contribute nothing
(appending an empty sequence leaves the result unchanged) and an
all-empty non-empty list yields the empty result without error. -/
theorem findSynchrony_empty_input_behaviour :
    find_synchronous_spikes ([] : List (List ℚ)) = none
    ∧ (∀ ts : List (List ℚ), ts ≠ [] →
        find_synchronous_spikes (ts ++ [[]]) = find_synchronous_spikes ts)
    ∧ (∀ ts : List (List ℚ), ts ≠ [] → (∀ l ∈ ts, l = []) →
        find_synchronous_spikes ts = some ([], [])) := by
  refine ⟨rfl, fun ts h => ?_, fun ts h hall => ?_⟩
  · have happ : ts ++ [[]] ≠ [] := by
      cases ts with
      | nil => exact absurd rfl h
      | cons a t => simp
    rw [find_synchronous_eq _ happ, find_synchronous_eq _ h, sync_flat,
      sync_flat, pairsFrom_append_empty, List.flatten_append]
    simp
  · have hflat : ts.flatten = [] := by
      rw [List.flatten_eq_nil_iff]
      exact hall
    rw [find_synchronous_eq _ h, sync_flat, hflat]
    rfl

theorem findSynchrony_empty_input_behaviour_witness :
    (([[1], [2]] : List (List ℚ)) ≠ []) ∧
      find_synchronous_spikes ([[1], [2]] ++ [[]]) =
        find_synchronous_spikes [[1], [2]] :=
  ⟨by decide, findSynchrony_empty_input_behaviour.2.1 [[1], [2]] (by decide)⟩

/-- C9: `find_synchronous_spikes` produces the same `times` array on any
permutation of its input sequences (only the owner indices are remapped),
and — as the special case of the identity permutation — re-running on the
same input reproduces identical `times`. -/
theorem findSynchrony_perm_invariant (ts ts' : List (List ℚ))
    (h : ts.Perm ts') :
    Option.map Prod.fst (find_synchronous_spikes ts) =
      Option.map Prod.fst (find_synchronous_spikes ts') := by
  by_cases hnil : ts = []
  · subst hnil
    rw [(h.symm).eq_nil]
  · have hnil' : ts' ≠ [] := fun hc => hnil (List.Perm.eq_nil (hc ▸ h))
    rw [find_synchronous_eq ts hnil, find_synchronous_eq ts' hnil']
    simp only [Option.map_some']
    congr 1
    refine List.eq_of_perm_of_sorted ?_ (sync_flat_fst_sorted ts)
      (sync_flat_fst_sorted ts')
    rw [List.perm_iff_count]
    intro s
    rw [sync_flat_fst_count, sync_flat_fst_count,
      (List.Perm.flatten h).count_eq s]

theorem findSynchrony_perm_invariant_witness :
    ([[1, 2], [2, 3]] : List (List ℚ)).Perm [[2, 3], [1, 2]] ∧
      Option.map Prod.fst (find_synchronous_spikes [[1, 2], [2, 3]]) =
        Option.map Prod.fst (find_synchronous_spikes [[2, 3], [1, 2]]) :=
  ⟨by decide, findSynchrony_perm_invariant [[1, 2], [2, 3]] [[2, 3], [1, 2]]
    (by decide)⟩

/-- C6, counterexample: on the unsorted two-row table
`[(t=2, unit 0, "A"), (t=1, unit 0, "A")]` with `min_spikes = 0`, the
single returned sequence keeps the table's row order `[2, 1]`, which is
not sorted ascending by timestamp — the code does not sort (neo's
`SpikeTrain` stores the times exactly as given). -/
theorem groupByUnit_unsorted_counterexample :
    (spikes_to_neo [⟨2, 0, "A"⟩, ⟨1, 0, "A"⟩] 0).map SpikeTrainE.times = [[2, 1]]
    ∧ ¬ List.Sorted (fun a b => a ≤ b) [(2 : ℚ), 1] := by decide

/-- C6, amended: for every spike table and every `min_spikes`,
`spikes_to_neo` returns one sequence per distinct `unit_id` (in order of
first appearance) whose event count strictly exceeds `min_spikes`, and
each returned sequence lists that unit's timestamps in the input table's
row order (it is NOT re-sorted by timestamp). -/
theorem groupByUnit_spec (spikes : List Event) (m : ℕ) :
    ((spikes_to_neo spikes m).map SpikeTrainE.times =
      ((pdUnique (spikes.map Event.unit_id)).filter
          (fun u => decide (m < (spikes.filter (fun e => e.unit_id == u)).length))).map
        (fun u => (spikes.filter (fun e => e.unit_id == u)).map Event.spike_time))
    ∧ (∀ st ∈ spikes_to_neo spikes m, m < st.times.length ∧
        ∃ u ∈ spikes.map Event.unit_id,
          st.times = (spikes.filter (fun e => e.unit_id == u)).map Event.spike_time)
    ∧ (∀ u ∈ spikes.map Event.unit_id,
        m < (spikes.filter (fun e => e.unit_id == u)).length →
        ∃ st ∈ spikes_to_neo spikes m,
          st.times = (spikes.filter (fun e => e.unit_id == u)).map Event.spike_time) := by
  have h1 : spikes_to_neo spikes m =
      ((pdUnique (spikes.map Event.unit_id)).filter
          (fun u => decide (m < (spikes.filter (fun e => e.unit_id == u)).length))).map
        (fun u => SpikeTrainE.mk
          ((spikes.filter (fun e => e.unit_id == u)).map Event.spike_time)
          ((listMin (spikes.map Event.spike_time)).getD 0 - 1)
          ((listMax (spikes.map Event.spike_time)).getD 0 + 1)
          ((((spikes.filter (fun e => e.unit_id == u)).map Event.brain_area).head?).getD "")) := by
    rw [spikes_to_neo,
      filterMap_if (pdUnique (spikes.map Event.unit_id))
        (fun u => m < ((spikes.filter (fun e => e.unit_id == u)).map
          Event.spike_time).length)
        (fun u => SpikeTrainE.mk
          ((spikes.filter (fun e => e.unit_id == u)).map Event.spike_time)
          ((listMin (spikes.map Event.spike_time)).getD 0 - 1)
          ((listMax (spikes.map Event.spike_time)).getD 0 + 1)
          ((((spikes.filter (fun e => e.unit_id == u)).map Event.brain_area).head?).getD ""))]
    simp only [List.length_map]
  refine ⟨?_, fun st hst => ?_, fun u hu hlen => ?_⟩
  · rw [h1, List.map_map]
    rfl
  · rw [h1] at hst
    obtain ⟨u, hu_mem, hu_eq⟩ := List.mem_map.mp hst
    obtain ⟨hu_pd, hu_dec⟩ := List.mem_filter.mp hu_mem
    refine ⟨?_, u, mem_pdUnique.mp hu_pd, ?_⟩
    · rw [← hu_eq]
      simpa [List.length_map] using of_decide_eq_true hu_dec
    · rw [← hu_eq]
  · refine ⟨SpikeTrainE.mk
      ((spikes.filter (fun e => e.unit_id == u)).map Event.spike_time)
      ((listMin (spikes.map Event.spike_time)).getD 0 - 1)
      ((listMax (spikes.map Event.spike_time)).getD 0 + 1)
      ((((spikes.filter (fun e => e.unit_id == u)).map Event.brain_area).head?).getD ""),
      ?_, rfl⟩
    rw [h1]
    exact List.mem_map.mpr ⟨u,
      List.mem_filter.mpr ⟨mem_pdUnique.mpr hu, decide_eq_true hlen⟩, rfl⟩

theorem groupByUnit_spec_witness :
    ((0 : ℕ) ∈ ([⟨2, 0, "A"⟩, ⟨1, 0, "A"⟩] : List Event).map Event.unit_id)
    ∧ 0 < (([⟨2, 0, "A"⟩, ⟨1, 0, "A"⟩] : List Event).filter
        (fun e => e.unit_id == 0)).length
    ∧ ∃ st ∈ spikes_to_neo [⟨2, 0, "A"⟩, ⟨1, 0, "A"⟩] 0,
        st.times = (([⟨2, 0, "A"⟩, ⟨1, 0, "A"⟩] : List Event).filter
          (fun e => e.unit_id == 0)).map Event.spike_time :=
  ⟨by decide, by decide,
    (groupByUnit_spec [⟨2, 0, "A"⟩, ⟨1, 0, "A"⟩] 0).2.2 0 (by decide) (by decide)⟩

/-- C7: `select_brain_area` matches the requested attribute
case-insensitively by uppercasing it before comparison; when the
normalized value occurs among the table's attribute values it returns
exactly the rows carrying that value, and when it is absent it fails with
an error reporting the table's distinct attribute values. -/
theorem filterByAttribute_spec (spikes : List Event) (ba : String) :
    (strUpper ba ∈ spikes.map Event.brain_area →
      ∃ l, select_brain_area spikes ba = Except.ok l ∧
        ∀ e, e ∈ l ↔ e ∈ spikes ∧ e.brain_area = strUpper ba)
    ∧ (strUpper ba ∉ spikes.map Event.brain_area →
      ∃ vs, select_brain_area spikes ba = Except.error vs ∧
        ∀ a, a ∈ vs ↔ a ∈ spikes.map Event.brain_area) := by
  constructor
  · intro hmem
    refine ⟨spikes.filter (fun e => e.brain_area == strUpper ba), ?_, fun e => ?_⟩
    · simp only [select_brain_area]
      rw [if_pos (mem_pdUnique.mpr hmem)]
    · rw [List.mem_filter, beq_iff_eq]
  · intro hmem
    refine ⟨pdUnique (spikes.map Event.brain_area), ?_, fun a => mem_pdUnique⟩
    simp only [select_brain_area]
    rw [if_neg (fun hc => hmem (mem_pdUnique.mp hc))]

theorem filterByAttribute_spec_witness :
    (strUpper "lm" ∈ ([⟨1, 0, "LM"⟩] : List Event).map Event.brain_area) ∧
      ∃ l, select_brain_area [⟨1, 0, "LM"⟩] "lm" = Except.ok l ∧
        ∀ e, e ∈ l ↔ e ∈ ([⟨1, 0, "LM"⟩] : List Event) ∧
          e.brain_area = strUpper "lm" :=
  ⟨by decide, (filterByAttribute_spec [⟨1, 0, "LM"⟩] "lm").1 (by decide)⟩

end SpikeAnalysis
